import Mathlib

/-!
Verification development for the mintlayer-core snapshot.

Shallow embedding of the subsystems the claims are about:
* `common/src/primitives/amount.rs` — the checked `Amount` arithmetic;
* `common/src/chain/transaction/input.rs` — `OutPointSourceId` / `OutPoint`
  and their `Ord` implementations;
* `mempool/src/pool.rs` — the mempool store, entry graph, validation and
  admission pipeline;
* the chainstate genesis-acceptance contract (the `process_block`
  implementation itself is not part of the source snapshot; it is modelled
  from the specification, see the `ChainstateSpec` namespace).

Machine integers are modelled as `Nat` with explicit `2 ^ w` bounds where
overflow matters.  256-bit hashes (`H256`) are modelled as `Nat`; the `Ord`
instance of the Rust fixed-hash type compares bytes big-endian
lexicographically, which coincides with numeric comparison of the value.
-/

/-! ## Amount (common/src/primitives/amount.rs)

`Amount` wraps a `u128` (`IntType`).  Every arithmetic operator delegates to
the corresponding `checked_*` operation of `u128`.  We model the `u128`
value as a `Nat`; the checked operations are total functions into
`Option Amount` with the `2 ^ 128` bound explicit. -/

def amountBound : Nat := 2 ^ 128

structure Amount where
  val : Nat
deriving DecidableEq, Repr

/-- Model of `impl Add for Amount` (`checked_add` on `u128`). -/
def Amount.add (a b : Amount) : Option Amount :=
  if a.val + b.val < amountBound then some ⟨a.val + b.val⟩ else none

/-- Model of `impl Sub for Amount` (`checked_sub` on `u128`): none on underflow. -/
def Amount.sub (a b : Amount) : Option Amount :=
  if b.val ≤ a.val then some ⟨a.val - b.val⟩ else none

/-- Model of `impl Mul for Amount` (`checked_mul` on `u128`). -/
def Amount.mul (a b : Amount) : Option Amount :=
  if a.val * b.val < amountBound then some ⟨a.val * b.val⟩ else none

/-- Model of `impl Div for Amount` (`checked_div` on `u128`): none iff the divisor is zero. -/
def Amount.div (a b : Amount) : Option Amount :=
  if b.val = 0 then none else some ⟨a.val / b.val⟩

/-- Model of `impl Rem for Amount` (`checked_rem` on `u128`): none iff the divisor is zero. -/
def Amount.rem (a b : Amount) : Option Amount :=
  if b.val = 0 then none else some ⟨a.val % b.val⟩

/-! ## OutPoint ordering (common/src/chain/transaction/input.rs) -/

/-- `OutPointSourceId`: the source of a spendable output, either a
transaction id or a block id (block reward).  The 256-bit hash inside the
id is modelled as a `Nat`. -/
inductive OutPointSourceId where
  | transaction (h : Nat)
  | blockReward (h : Nat)
deriving DecidableEq, Repr

/-- Model of `outpoint_source_id_as_monolithic_tuple`: tag 0 for
`Transaction`, tag 1 for `BlockReward`, paired with the 256-bit hash. -/
def outpoint_source_id_as_monolithic_tuple : OutPointSourceId → Nat × Nat
  | .transaction h => (0, h)
  | .blockReward h => (1, h)

/-- Lexicographic comparison of `(u8, H256)` pairs, as Rust derives for
tuples. -/
def pairCompare (a b : Nat × Nat) : Ordering :=
  match compare a.1 b.1 with
  | .eq => compare a.2 b.2
  | o => o

/-- Model of `impl Ord for OutPointSourceId` (via `partial_cmp`). -/
def OutPointSourceId.cmp (a b : OutPointSourceId) : Ordering :=
  pairCompare (outpoint_source_id_as_monolithic_tuple a)
    (outpoint_source_id_as_monolithic_tuple b)

/-- `OutPoint` of `input.rs`: an output source id together with the output
index (`u32`). -/
structure OutPoint where
  id : OutPointSourceId
  index : Nat
deriving DecidableEq, Repr

/-- Model of `impl Ord for OutPoint` (via `partial_cmp`):
`(monolithic_tuple(id), index)` compared lexicographically. -/
def OutPoint.cmp (a b : OutPoint) : Ordering :=
  match pairCompare (outpoint_source_id_as_monolithic_tuple a.id)
      (outpoint_source_id_as_monolithic_tuple b.id) with
  | .eq => compare a.index b.index
  | o => o

/-- The tag of an outpoint source id, as used by the monolithic tuple. -/
def OutPointSourceId.tag : OutPointSourceId → Nat
  | .transaction _ => 0
  | .blockReward _ => 1

/-- The 256-bit hash of an outpoint source id. -/
def OutPointSourceId.hash : OutPointSourceId → Nat
  | .transaction h => h
  | .blockReward h => h

/-- Three-way lexicographic comparison on `(tag, hash, index)` triples. -/
def tripleCompare (a b : Nat × Nat × Nat) : Ordering :=
  match compare a.1 b.1 with
  | .eq =>
    match compare a.2.1 b.2.1 with
    | .eq => compare a.2.2 b.2.2
    | o => o
  | o => o

/-- The `(tag, hash, index)` triple of an outpoint. -/
def OutPoint.triple (o : OutPoint) : Nat × Nat × Nat :=
  (o.id.tag, o.id.hash, o.index)

lemma tripleCompare_lt_iff (a b : Nat × Nat × Nat) :
    tripleCompare a b = .lt ↔
      a.1 < b.1 ∨ a.1 = b.1 ∧ (a.2.1 < b.2.1 ∨ a.2.1 = b.2.1 ∧ a.2.2 < b.2.2) := by
  unfold tripleCompare
  rcases h1 : compare a.1 b.1 with _ | _ | _ <;>
    rcases h2 : compare a.2.1 b.2.1 with _ | _ | _ <;>
      simp only [h1, h2] <;>
        simp [Nat.compare_eq_lt, Nat.compare_eq_eq, Nat.compare_eq_gt,
          Nat.compare_eq_lt.mp, Nat.compare_eq_eq.mp, Nat.compare_eq_gt.mp] at h1 h2 ⊢ <;>
          omega

lemma tripleCompare_eq_iff (a b : Nat × Nat × Nat) :
    tripleCompare a b = .eq ↔ a = b := by
  unfold tripleCompare
  rcases h1 : compare a.1 b.1 with _ | _ | _ <;>
    rcases h2 : compare a.2.1 b.2.1 with _ | _ | _ <;>
      simp only [h1, h2] <;>
        simp [Nat.compare_eq_lt, Nat.compare_eq_eq, Nat.compare_eq_gt,
          Prod.ext_iff] at h1 h2 ⊢ <;>
          omega

lemma tripleCompare_gt_iff_swap (a b : Nat × Nat × Nat) :
    tripleCompare a b = .gt ↔ tripleCompare b a = .lt := by
  unfold tripleCompare
  rcases h1 : compare a.1 b.1 with _ | _ | _ <;>
    rcases h1' : compare b.1 a.1 with _ | _ | _ <;>
      rcases h2 : compare a.2.1 b.2.1 with _ | _ | _ <;>
        rcases h2' : compare b.2.1 a.2.1 with _ | _ | _ <;>
          simp only [h1, h1', h2, h2'] <;>
            simp [Nat.compare_eq_lt, Nat.compare_eq_eq, Nat.compare_eq_gt]
              at h1 h1' h2 h2' ⊢ <;>
              omega

lemma outPoint_cmp_eq_tripleCompare (a b : OutPoint) :
    OutPoint.cmp a b = tripleCompare a.triple b.triple := by
  obtain ⟨ia, xa⟩ := a
  obtain ⟨ib, xb⟩ := b
  cases ia <;> cases ib <;> rfl

lemma outPoint_triple_injective (a b : OutPoint) (h : a.triple = b.triple) : a = b := by
  obtain ⟨ia, xa⟩ := a
  obtain ⟨ib, xb⟩ := b
  cases ia <;> cases ib <;>
    simp [OutPoint.triple, OutPointSourceId.tag, OutPointSourceId.hash,
      Prod.ext_iff] at h <;>
    simp_all

/-- C7: the comparison on `OutPoint` is a total order equal to the
lexicographic order on `(source tag, 256-bit hash, output index)` with the
`Transaction` tag (0) below the `BlockReward` tag (1): every `BlockReward`
outpoint compares greater than every `Transaction` outpoint, and within one
tag outpoints compare by hash first, then by output index. -/
theorem outPoint_cmp_total_lex_order :
    (∀ a b : OutPoint, OutPoint.cmp a b = tripleCompare a.triple b.triple)
    ∧ (∀ a : OutPoint, OutPoint.cmp a a = .eq)
    ∧ (∀ a b : OutPoint, OutPoint.cmp a b = .eq → a = b)
    ∧ (∀ a b : OutPoint, OutPoint.cmp a b = .lt ↔ OutPoint.cmp b a = .gt)
    ∧ (∀ a b c : OutPoint,
        OutPoint.cmp a b = .lt → OutPoint.cmp b c = .lt → OutPoint.cmp a c = .lt)
    ∧ (∀ hb ht i j,
        OutPoint.cmp ⟨.blockReward hb, i⟩ ⟨.transaction ht, j⟩ = .gt
        ∧ OutPoint.cmp ⟨.transaction ht, j⟩ ⟨.blockReward hb, i⟩ = .lt)
    ∧ (∀ h1 i1 h2 i2,
        OutPoint.cmp ⟨.transaction h1, i1⟩ ⟨.transaction h2, i2⟩ =
          (match compare h1 h2 with | .eq => compare i1 i2 | o => o)
        ∧ OutPoint.cmp ⟨.blockReward h1, i1⟩ ⟨.blockReward h2, i2⟩ =
          (match compare h1 h2 with | .eq => compare i1 i2 | o => o)) := by
  refine ⟨outPoint_cmp_eq_tripleCompare, ?_, ?_, ?_, ?_, ?_, ?_⟩
  · intro a
    rw [outPoint_cmp_eq_tripleCompare, tripleCompare_eq_iff]
  · intro a b h
    rw [outPoint_cmp_eq_tripleCompare, tripleCompare_eq_iff] at h
    exact outPoint_triple_injective a b h
  · intro a b
    rw [outPoint_cmp_eq_tripleCompare, outPoint_cmp_eq_tripleCompare,
      tripleCompare_gt_iff_swap]
  · intro a b c hab hbc
    rw [outPoint_cmp_eq_tripleCompare, tripleCompare_lt_iff] at hab hbc ⊢
    omega
  · intro hb ht i j
    constructor <;> rfl
  · intro h1 i1 h2 i2
    constructor <;> (cases h : compare h1 h2 <;>
      simp only [OutPoint.cmp, pairCompare, outpoint_source_id_as_monolithic_tuple, h] <;>
        rfl)

/-- C8: all arithmetic on `Amount` is checked and returns an optional value:
addition, subtraction, multiplication, division and remainder return the
exact unsigned 128-bit result when it is representable, and `none` on
overflow or underflow (including division or remainder by zero). -/
theorem amount_checked_arithmetic (a b : Amount)
    (ha : a.val < amountBound) (hb : b.val < amountBound) :
    ((∀ c, Amount.add a b = some c ↔ a.val + b.val < amountBound ∧ c = ⟨a.val + b.val⟩)
      ∧ (Amount.add a b = none ↔ amountBound ≤ a.val + b.val))
    ∧ ((∀ c, Amount.sub a b = some c ↔ b.val ≤ a.val ∧ c = ⟨a.val - b.val⟩)
      ∧ (Amount.sub a b = none ↔ a.val < b.val))
    ∧ ((∀ c, Amount.mul a b = some c ↔ a.val * b.val < amountBound ∧ c = ⟨a.val * b.val⟩)
      ∧ (Amount.mul a b = none ↔ amountBound ≤ a.val * b.val))
    ∧ ((∀ c, Amount.div a b = some c ↔ b.val ≠ 0 ∧ c = ⟨a.val / b.val⟩)
      ∧ (Amount.div a b = none ↔ b.val = 0)
      ∧ (∀ c, Amount.div a b = some c → c.val < amountBound))
    ∧ ((∀ c, Amount.rem a b = some c ↔ b.val ≠ 0 ∧ c = ⟨a.val % b.val⟩)
      ∧ (Amount.rem a b = none ↔ b.val = 0)
      ∧ (∀ c, Amount.rem a b = some c → c.val < amountBound)) := by
  refine ⟨⟨?_, ?_⟩, ⟨?_, ?_⟩, ⟨?_, ?_⟩, ⟨?_, ?_, ?_⟩, ⟨?_, ?_, ?_⟩⟩ <;>
    first
      | (rintro ⟨cv⟩
         simp only [Amount.add, Amount.sub, Amount.mul, Amount.div, Amount.rem]
         split <;> simp_all [Amount.mk.injEq] <;>
           first
             | omega
             | (rintro rfl; exact lt_of_le_of_lt (Nat.div_le_self _ _) ha)
             | (rintro rfl; exact lt_of_le_of_lt (Nat.mod_le _ _) ha))
      | (simp only [Amount.add, Amount.sub, Amount.mul, Amount.div, Amount.rem]
         split <;> simp_all <;> omega)

/-- Witness for C8 at concrete amounts. -/
theorem amount_checked_arithmetic_witness :
    ((4 : Nat) < amountBound ∧ (2 : Nat) < amountBound)
    ∧ Amount.sub ⟨4⟩ ⟨2⟩ = some ⟨2⟩ := by
  have h := amount_checked_arithmetic ⟨4⟩ ⟨2⟩ (by decide) (by decide)
  exact ⟨⟨by decide, by decide⟩, (h.2.1.1 ⟨2⟩).mpr ⟨by decide, rfl⟩⟩

/-! ## Mempool (mempool/src/pool.rs)

The mempool model lives in its own namespace: `pool.rs` predates the
`OutPointSourceId` refactor and uses an `OutPoint` consisting of a
transaction id (`Id<Transaction>`, a 256-bit hash) and an output index. -/

namespace Mempool

/-- `MAX_BLOCK_SIZE_BYTES` from pool.rs. -/
def MAX_BLOCK_SIZE_BYTES : Nat := 1000000

/-- `MEMPOOL_MAX_TXS` from pool.rs. -/
def MEMPOOL_MAX_TXS : Nat := 1000000

/-- `OutPoint::COINBASE_OUTPOINT_INDEX` (`u32::MAX`). -/
def COINBASE_OUTPOINT_INDEX : Nat := 4294967295

/-- The outpoint as used by pool.rs: source transaction id (256-bit hash,
modelled as `Nat`) and output index (`u32`). -/
structure OutPoint where
  txId : Nat
  index : Nat
deriving DecidableEq, Repr

/-- `TxInput`: an outpoint plus witness bytes. -/
structure TxInput where
  outpoint : OutPoint
  witness_bytes : List Nat
deriving DecidableEq, Repr

/-- `Destination` from output.rs; the payloads (public-key hash, key,
script id) are abstracted as naturals. -/
inductive Destination where
  | address (h : Nat)
  | publicKey (k : Nat)
  | scriptHash (h : Nat)
  | anyoneCanSpend
deriving DecidableEq, Repr

/-- `TxOutput` from output.rs: an amount and a destination. -/
structure TxOutput where
  value : Amount
  dest : Destination
deriving DecidableEq, Repr

/-- Modelled from the spec: the `Transaction` struct itself is not part of
the source snapshot (only its inputs/outputs are); per the spec it is
`(flags, inputs, outputs, locktime, id)` with the id a deterministic
256-bit hash of the canonical encoding, carried here as the abstract field
`txid`.  The encoded size (`encoded_size()`) is likewise carried as the
abstract field `size`. -/
structure Transaction where
  flags : Nat
  inputs : List TxInput
  outputs : List TxOutput
  locktime : Nat
  txid : Nat
  size : Nat
deriving DecidableEq, Repr

/-- Modelled from the spec: `Transaction::is_replaceable` is not part of
the snapshot; the spec says the transaction's flags bit signals
replaceability, and the tests build replaceable transactions with
`flags = 1` and irreplaceable ones with `flags = 0`. -/
def Transaction.is_replaceable (tx : Transaction) : Bool :=
  tx.flags % 2 == 1

/-- Modelled from the spec: `Transaction::is_coinbase` is not part of the
snapshot; per the spec glossary a coinbase transaction carries the
designated sentinel input (zero source id, `COINBASE_OUTPOINT_INDEX`). -/
def Transaction.is_coinbase (tx : Transaction) : Bool :=
  tx.inputs.any fun i =>
    (i.outpoint.txId == 0) && (i.outpoint.index == COINBASE_OUTPOINT_INDEX)

/-- The input outpoints of a transaction, in input order. -/
def Transaction.outpointsOf (tx : Transaction) : List OutPoint :=
  tx.inputs.map TxInput.outpoint

/-- `TxMempoolEntry`: a transaction with its fee and its parent entries.
The Rust type stores `parents` as `BTreeSet<Rc<TxMempoolEntry>>`, a
snapshot of the parent entries taken at admission time; the `Rc` graph is
modelled by nesting.  The `children` field is not carried: it starts empty
(`TxMempoolEntry::new`) and the only code that inserts into a `children`
set is the parent-update loop of `MempoolStore::add_tx`, which panics
before performing any insertion (see `MempoolStore.add_tx` below), so
`children` is empty for every entry of every reachable store. -/
inductive TxMempoolEntry where
  | mk (tx : Transaction) (fee : Amount) (parents : List TxMempoolEntry)

/-- The transaction of an entry. -/
def TxMempoolEntry.tx : TxMempoolEntry → Transaction
  | .mk t _ _ => t

/-- The fee of an entry. -/
def TxMempoolEntry.fee : TxMempoolEntry → Amount
  | .mk _ f _ => f

/-- The parent set of an entry. -/
def TxMempoolEntry.parents : TxMempoolEntry → List TxMempoolEntry
  | .mk _ _ ps => ps

/-- The transaction id of an entry; the `Ord` of `TxMempoolEntry` compares
exactly this value (reversed), so it is the identity of the entry in every
`BTreeSet` of entries. -/
def TxMempoolEntry.txid (e : TxMempoolEntry) : Nat :=
  e.tx.txid

/-- Membership in a visited `BTreeSet<Rc<TxMempoolEntry>>`, decided by the
entry `Ord`, i.e. by transaction id. -/
def visitedContains (visited : List TxMempoolEntry) (p : TxMempoolEntry) : Bool :=
  visited.any fun q => q.txid == p.txid

/-- Model of `unconfirmed_ancestors_inner`: depth-first walk over
`parents`, threading the visited set (the Rust code mutates a `BTreeSet`
in place; insertion is modelled by appending).  The first argument is the
list of parents of the current node still to be processed. -/
def ancestorsWalk : List TxMempoolEntry → List TxMempoolEntry → List TxMempoolEntry
  | [], visited => visited
  | p :: rest, visited =>
    if visitedContains visited p then ancestorsWalk rest visited
    else ancestorsWalk rest (ancestorsWalk p.parents (visited ++ [p]))
termination_by l _ => sizeOf l
decreasing_by
  all_goals simp_wf
  all_goals cases p
  all_goals simp [TxMempoolEntry.parents]
  all_goals omega

/-- Model of `TxMempoolEntry::unconfirmed_ancestors`. -/
def TxMempoolEntry.unconfirmed_ancestors (e : TxMempoolEntry) : List TxMempoolEntry :=
  ancestorsWalk e.parents []

/-- Model of `TxMempoolEntry::is_replaceable`: the entry's own transaction
signals replaceability, or some unconfirmed ancestor does. -/
def TxMempoolEntry.is_replaceable (e : TxMempoolEntry) : Bool :=
  e.tx.is_replaceable || e.unconfirmed_ancestors.any fun a => a.tx.is_replaceable

/-- `TxValidationError` from pool.rs (payload-free variants except
`OutPointNotFound`, whose payload is the outpoint and a transaction id). -/
inductive TxValidationError where
  | noInputs
  | noOutputs
  | duplicateInputs
  | looseCoinbase
  | outPointNotFound (outpoint : OutPoint) (tx_id : Nat)
  | exceedsMaxBlockSize
  | transactionAlreadyInMempool
  | conflictWithIrreplaceableTransaction
  | transactionFeeOverflow
deriving DecidableEq, Repr

/-- `MempoolError` from pool.rs. -/
inductive MempoolError where
  | mempoolFull
  | txValidationError (e : TxValidationError)
deriving DecidableEq, Repr

/-- `txs_by_id` lookup (`HashMap<H256, Rc<TxMempoolEntry>>`; modelled as an
association list with unique keys — only key-based access is observable). -/
def lookupById : List (Nat × TxMempoolEntry) → Nat → Option TxMempoolEntry
  | [], _ => none
  | (k, v) :: rest, key => if k = key then some v else lookupById rest key

/-- `txs_by_id` insert (overwrites an existing binding of the key). -/
def insertById : List (Nat × TxMempoolEntry) → Nat → TxMempoolEntry →
    List (Nat × TxMempoolEntry)
  | [], key, v => [(key, v)]
  | (k, v') :: rest, key, v =>
    if k = key then (key, v) :: rest else (k, v') :: insertById rest key v

/-- `BTreeSet<Rc<TxMempoolEntry>>` insertion.  The set is ordered by the
entry `Ord`, which compares transaction ids reversed, so the list is kept
in descending id order; `insert` keeps the existing element when an equal
one (same id) is already present. -/
def bucketInsert : List TxMempoolEntry → TxMempoolEntry → List TxMempoolEntry
  | [], e => [e]
  | x :: rest, e =>
    if e.txid = x.txid then x :: rest
    else if x.txid < e.txid then e :: x :: rest
    else x :: bucketInsert rest e

/-- `txs_by_fee.entry(fee).or_default().insert(entry)`: the fee map is a
`BTreeMap<Amount, BTreeSet<…>>`, kept in ascending fee order. -/
def feeMapInsert : List (Amount × List TxMempoolEntry) → Amount → TxMempoolEntry →
    List (Amount × List TxMempoolEntry)
  | [], fee, e => [(fee, [e])]
  | (f, b) :: rest, fee, e =>
    if fee.val = f.val then (f, bucketInsert b e) :: rest
    else if fee.val < f.val then (fee, [e]) :: (f, b) :: rest
    else (f, b) :: feeMapInsert rest fee e

/-- `spender_txs` lookup (`BTreeMap<OutPoint, Rc<TxMempoolEntry>>`;
modelled as an association list with unique keys — no claim observes its
iteration order). -/
def lookupSpender : List (OutPoint × TxMempoolEntry) → OutPoint → Option TxMempoolEntry
  | [], _ => none
  | (k, v) :: rest, key => if k = key then some v else lookupSpender rest key

/-- `spender_txs` insert (overwrites an existing binding of the key). -/
def insertSpender : List (OutPoint × TxMempoolEntry) → OutPoint → TxMempoolEntry →
    List (OutPoint × TxMempoolEntry)
  | [], key, v => [(key, v)]
  | (k, v') :: rest, key, v =>
    if k = key then (key, v) :: rest else (k, v') :: insertSpender rest key v

/-- `MempoolStore`: the three indices sharing the entries. -/
structure MempoolStore where
  txs_by_id : List (Nat × TxMempoolEntry)
  txs_by_fee : List (Amount × List TxMempoolEntry)
  spender_txs : List (OutPoint × TxMempoolEntry)

/-- Model of `MempoolStore::new`. -/
def MempoolStore.new : MempoolStore :=
  ⟨[], [], []⟩

/-- Model of `MempoolStore::contains_outpoint`: whether the outpoint is
created by an unconfirmed transaction. -/
def MempoolStore.contains_outpoint (s : MempoolStore) (o : OutPoint) : Bool :=
  match lookupById s.txs_by_id o.txId with
  | some entry => decide (o.index < entry.tx.outputs.length)
  | none => false

/-- Model of `MempoolStore::get_unconfirmed_outpoint_value`. -/
def MempoolStore.get_unconfirmed_outpoint_value (s : MempoolStore) (o : OutPoint) :
    Except TxValidationError Amount :=
  match lookupById s.txs_by_id o.txId with
  | none => .error (.outPointNotFound o o.txId)
  | some entry =>
    match entry.tx.outputs.get? o.index with
    | none => .error (.outPointNotFound o o.txId)
    | some out => .ok out.value

/-- Model of `MempoolStore::find_conflicting_tx`. -/
def MempoolStore.find_conflicting_tx (s : MempoolStore) (o : OutPoint) :
    Option TxMempoolEntry :=
  lookupSpender s.spender_txs o

/-- Model of `MempoolStore::add_tx`.  The `Option` result is `none` when
the Rust function panics: after inserting the entry into `txs_by_id`,
`txs_by_fee` and `spender_txs`, it iterates `entry.parents.clone()` and
calls `Rc::get_mut(&mut parent).expect("exclusive access to parent")` on
each parent in order to insert the new entry into the parent's `children`
set.  Every parent was obtained by `create_entry` as a clone of an `Rc`
stored in `txs_by_id`, so the parent allocation carries at least two
strong references (the map's and the parents set's, plus the loop's own
clone) and `Rc::get_mut` returns `None`; the `expect` then panics.  Hence
the call aborts without returning exactly when the parents set is
non-empty; a panic has no observable resulting state, modelled as `none`. -/
def MempoolStore.add_tx (s : MempoolStore) (entry : TxMempoolEntry) : Option MempoolStore :=
  if entry.parents.isEmpty then
    some
      { txs_by_id := insertById s.txs_by_id entry.txid entry
        txs_by_fee := feeMapInsert s.txs_by_fee entry.fee entry
        spender_txs :=
          entry.tx.inputs.foldl (fun sp i => insertSpender sp i.outpoint entry)
            s.spender_txs }
  else none

/-- The `ChainState` trait: the confirmed view the mempool validates
against.  `get_outpoint_value` returns `none` where the Rust
implementation returns an error. -/
structure ChainState where
  contains_outpoint : OutPoint → Bool
  get_outpoint_value : OutPoint → Option Amount

/-- `MempoolImpl`: the store plus the chain state. -/
structure MempoolImpl where
  store : MempoolStore
  chain_state : ChainState

/-- Model of `Mempool::create`. -/
def MempoolImpl.create (c : ChainState) : MempoolImpl :=
  ⟨MempoolStore.new, c⟩

/-- Model of `Mempool::contains_transaction`. -/
def MempoolImpl.contains_transaction (m : MempoolImpl) (txId : Nat) : Bool :=
  (lookupById m.store.txs_by_id txId).isSome

/-- Model of `MempoolImpl::outpoint_available`. -/
def MempoolImpl.outpoint_available (m : MempoolImpl) (o : OutPoint) : Bool :=
  m.store.contains_outpoint o || m.chain_state.contains_outpoint o

/-- Model of `verify_inputs_available`: the first input outpoint that is
available neither in the mempool nor in the chain state, if any. -/
def MempoolImpl.firstUnavailableOutpoint (m : MempoolImpl) (tx : Transaction) :
    Option OutPoint :=
  tx.outpointsOf.find? fun o => ! m.outpoint_available o

/-- Model of `has_duplicate_entry`: fold a seen-set over the list, true as
soon as an element is already present. -/
def hasDuplicateEntryAux : List OutPoint → List OutPoint → Bool
  | _, [] => false
  | seen, x :: rest => if seen.contains x then true else hasDuplicateEntryAux (x :: seen) rest

/-- Model of `has_duplicate_entry` applied to the input outpoints. -/
def hasDuplicateEntry (l : List OutPoint) : Bool :=
  hasDuplicateEntryAux [] l

/-- The `conflicts` vector of `validate_transaction`: for each input, the
entry already spending its outpoint, if any. -/
def MempoolImpl.conflictingEntries (m : MempoolImpl) (tx : Transaction) :
    List TxMempoolEntry :=
  tx.inputs.filterMap fun i => m.store.find_conflicting_tx i.outpoint

/-- Model of `MempoolImpl::validate_transaction`: `none` when the
transaction passes validation, otherwise the first error in source order. -/
def MempoolImpl.validate_transaction (m : MempoolImpl) (tx : Transaction) :
    Option TxValidationError :=
  if tx.inputs.isEmpty then some .noInputs
  else if tx.outputs.isEmpty then some .noOutputs
  else if tx.is_coinbase then some .looseCoinbase
  else if hasDuplicateEntry tx.outpointsOf then some .duplicateInputs
  else if MAX_BLOCK_SIZE_BYTES < tx.size then some .exceedsMaxBlockSize
  else if m.contains_transaction tx.txid then some .transactionAlreadyInMempool
  else if (m.conflictingEntries tx).any (fun e => ! e.is_replaceable) then
    some .conflictWithIrreplaceableTransaction
  else
    match m.firstUnavailableOutpoint tx with
    | some o => some (.outPointNotFound o tx.txid)
    | none => none

/-- Checked sum of a list of amounts (`sum::<Option<Amount>>()`, folding
the checked addition; `none` as soon as any partial sum overflows). -/
def checkedSum : List Amount → Option Amount
  | [] => some ⟨0⟩
  | a :: rest => (checkedSum rest).bind fun s => Amount.add a s

/-- The values of a transaction's inputs, as collected by `try_get_fee`:
chain-state value, or else the unconfirmed mempool value; the first lookup
failure aborts the collection. -/
def inputValues (m : MempoolImpl) : List TxInput → Except TxValidationError (List Amount)
  | [] => .ok []
  | i :: rest =>
    match
      (match m.chain_state.get_outpoint_value i.outpoint with
       | some v => Except.ok v
       | none => m.store.get_unconfirmed_outpoint_value i.outpoint) with
    | .error e => .error e
    | .ok v =>
      match inputValues m rest with
      | .error e => .error e
      | .ok vs => .ok (v :: vs)

/-- Model of `TryGetFee::try_get_fee`: `sum(inputs) - sum(outputs)`, with
all three checked operations mapping failure to `TransactionFeeOverflow`. -/
def MempoolImpl.try_get_fee (m : MempoolImpl) (tx : Transaction) :
    Except TxValidationError Amount :=
  match inputValues m tx.inputs with
  | .error e => .error e
  | .ok vals =>
    match checkedSum vals with
    | none => .error .transactionFeeOverflow
    | some sumInputs =>
      match checkedSum (tx.outputs.map TxOutput.value) with
      | none => .error .transactionFeeOverflow
      | some sumOutputs =>
        match Amount.sub sumInputs sumOutputs with
        | none => .error .transactionFeeOverflow
        | some fee => .ok fee

/-- The parent set collected by `create_entry`: the mempool entries found
under any input's source-tx id, collected into a `BTreeSet` (deduplicated
by entry id and ordered by the entry `Ord`). -/
def MempoolImpl.collectParents (m : MempoolImpl) (tx : Transaction) :
    List TxMempoolEntry :=
  (tx.inputs.filterMap fun i => lookupById m.store.txs_by_id i.outpoint.txId).foldl
    bucketInsert []

/-- Model of `MempoolImpl::create_entry`. -/
def MempoolImpl.create_entry (m : MempoolImpl) (tx : Transaction) :
    Except TxValidationError TxMempoolEntry :=
  match m.try_get_fee tx with
  | .error e => .error e
  | .ok fee => .ok (.mk tx fee (m.collectParents tx))

/-- The three possible outcomes of `add_transaction`: success with the new
mempool, an error (the mempool is untouched: the capacity check,
`validate_transaction` and `create_entry` all take `&self` and every error
is returned before `add_tx` runs), or the aborting panic inside
`MempoolStore::add_tx`. -/
inductive AddOutcome where
  | ok (m : MempoolImpl)
  | err (e : MempoolError)
  | panicked

/-- Model of `Mempool::add_transaction`. -/
def MempoolImpl.add_transaction (m : MempoolImpl) (tx : Transaction) : AddOutcome :=
  if MEMPOOL_MAX_TXS ≤ m.store.txs_by_fee.length then .err .mempoolFull
  else
    match m.validate_transaction tx with
    | some e => .err (.txValidationError e)
    | none =>
      match m.create_entry tx with
      | .error e => .err (.txValidationError e)
      | .ok entry =>
        match m.store.add_tx entry with
        | some s' => .ok { m with store := s' }
        | none => .panicked

/-- The entries of the fee index in iteration order:
`txs_by_fee.values().flatten()`, i.e. buckets in ascending fee order (the
source has no `.rev()`). -/
def MempoolImpl.entriesByFee (m : MempoolImpl) : List TxMempoolEntry :=
  (m.store.txs_by_fee.map Prod.snd).flatten

/-- Model of `Mempool::get_all`. -/
def MempoolImpl.get_all (m : MempoolImpl) : List Transaction :=
  m.entriesByFee.map TxMempoolEntry.tx

end Mempool

namespace Mempool

/-- The transaction ids of a list of entries. -/
def txidsOf (l : List TxMempoolEntry) : List Nat :=
  l.map TxMempoolEntry.txid

lemma txidsOf_append (a b : List TxMempoolEntry) :
    txidsOf (a ++ b) = txidsOf a ++ txidsOf b := by
  simp [txidsOf]

/-- The transitive closure of the mempool parent relation: `Ancestor a x`
holds iff `a` is an unconfirmed ancestor of `x`. -/
inductive Ancestor : TxMempoolEntry → TxMempoolEntry → Prop where
  | parent {a x : TxMempoolEntry} : a ∈ x.parents → Ancestor a x
  | step {a w x : TxMempoolEntry} : Ancestor w x → a ∈ w.parents → Ancestor a x

lemma Ancestor.trans_of {a p z : TxMempoolEntry} (h1 : Ancestor a p) :
    Ancestor p z → Ancestor a z := by
  induction h1 with
  | parent h => exact fun h2 => .step h2 h
  | step hw hmem ih => exact fun h2 => .step (ih h2) hmem

lemma ancestorsWalk_shape (l V : List TxMempoolEntry) :
    ∃ W, ancestorsWalk l V = V ++ W := by
  induction l, V using ancestorsWalk.induct with
  | case1 V => exact ⟨[], by simp [ancestorsWalk]⟩
  | case2 p rest V hmem ih =>
    obtain ⟨W, hW⟩ := ih
    exact ⟨W, by simp [ancestorsWalk, hmem, hW]⟩
  | case3 p rest V hmem ih1 ih2 =>
    obtain ⟨W1, h1⟩ := ih1
    obtain ⟨W2, h2⟩ := ih2
    rw [h1] at h2
    refine ⟨[p] ++ W1 ++ W2, ?_⟩
    simp [ancestorsWalk, hmem, h1]
    simpa using h2

lemma ancestorsWalk_mem_mono {v : TxMempoolEntry} (l V : List TxMempoolEntry)
    (h : v ∈ V) : v ∈ ancestorsWalk l V := by
  obtain ⟨W, hW⟩ := ancestorsWalk_shape l V
  rw [hW]
  exact List.mem_append_left _ h

lemma ancestorsWalk_txid_mono {t : Nat} (l V : List TxMempoolEntry)
    (h : t ∈ txidsOf V) : t ∈ txidsOf (ancestorsWalk l V) := by
  obtain ⟨W, hW⟩ := ancestorsWalk_shape l V
  rw [hW, txidsOf_append]
  exact List.mem_append_left _ h

lemma ancestorsWalk_sound (l V : List TxMempoolEntry) :
    ∀ z, (∀ p ∈ l, Ancestor p z) → ∀ w ∈ ancestorsWalk l V, w ∈ V ∨ Ancestor w z := by
  induction l, V using ancestorsWalk.induct with
  | case1 V =>
    intro z _ w hw
    simp [ancestorsWalk] at hw
    exact Or.inl hw
  | case2 p rest V hmem ih =>
    intro z hanc w hw
    rw [show ancestorsWalk (p :: rest) V = ancestorsWalk rest V from
      by simp [ancestorsWalk, hmem]] at hw
    exact ih z (fun q hq => hanc q (List.mem_cons_of_mem _ hq)) w hw
  | case3 p rest V hmem ih1 ih2 =>
    intro z hanc w hw
    rw [show ancestorsWalk (p :: rest) V =
        ancestorsWalk rest (ancestorsWalk p.parents (V ++ [p])) from
      by simp [ancestorsWalk, hmem]] at hw
    have hpz : Ancestor p z := hanc p (List.mem_cons_self p rest)
    rcases ih2 z (fun q hq => hanc q (List.mem_cons_of_mem _ hq)) w hw with hmid | hz
    · rcases ih1 p (fun q hq => Ancestor.parent hq) w hmid with hvp | hwp
      · rcases List.mem_append.mp hvp with hv | hp
        · exact Or.inl hv
        · have hwep : w = p := by simpa using hp
          subst hwep
          exact Or.inr hpz
      · exact Or.inr (hwp.trans_of hpz)
    · exact Or.inr hz

lemma ancestorsWalk_closure (l V : List TxMempoolEntry) :
    (∀ p ∈ l, p.txid ∈ txidsOf (ancestorsWalk l V))
    ∧ (∀ w ∈ ancestorsWalk l V,
        w ∈ V ∨ ∀ q ∈ w.parents, q.txid ∈ txidsOf (ancestorsWalk l V)) := by
  induction l, V using ancestorsWalk.induct with
  | case1 V =>
    constructor
    · intro p hp
      simp at hp
    · intro w hw
      simp [ancestorsWalk] at hw
      exact Or.inl hw
  | case2 p rest V hmem ih =>
    rw [show ancestorsWalk (p :: rest) V = ancestorsWalk rest V from
      by simp [ancestorsWalk, hmem]]
    constructor
    · intro x hx
      rcases List.mem_cons.mp hx with rfl | hx
      · have hin : x.txid ∈ txidsOf V := by
          simp [visitedContains] at hmem
          obtain ⟨q, hq, hqid⟩ := hmem
          exact hqid ▸ List.mem_map.mpr ⟨q, hq, rfl⟩
        exact ancestorsWalk_txid_mono rest V hin
      · exact ih.1 x hx
    · exact ih.2
  | case3 p rest V hmem ih1 ih2 =>
    rw [show ancestorsWalk (p :: rest) V =
        ancestorsWalk rest (ancestorsWalk p.parents (V ++ [p])) from
      by simp [ancestorsWalk, hmem]]
    constructor
    · intro x hx
      rcases List.mem_cons.mp hx with rfl | hx
      · have hpM : x ∈ ancestorsWalk x.parents (V ++ [x]) :=
          ancestorsWalk_mem_mono _ _ (by simp)
        have hpR : x ∈ ancestorsWalk rest (ancestorsWalk x.parents (V ++ [x])) :=
          ancestorsWalk_mem_mono _ _ hpM
        exact List.mem_map.mpr ⟨x, hpR, rfl⟩
      · exact ih2.1 x hx
    · intro w hw
      rcases ih2.2 w hw with hM | hq
      · rcases ih1.2 w hM with hVp | hq'
        · rcases List.mem_append.mp hVp with hV | hp
          · exact Or.inl hV
          · have hwep : w = p := by simpa using hp
            subst hwep
            right
            intro q hq
            exact ancestorsWalk_txid_mono _ _ (ih1.1 q hq)
        · right
          intro q hq
          exact ancestorsWalk_txid_mono _ _ (hq' q hq)
      · exact Or.inr hq

lemma ancestorsWalk_nodup (l V : List TxMempoolEntry) :
    (txidsOf V).Nodup → (txidsOf (ancestorsWalk l V)).Nodup := by
  induction l, V using ancestorsWalk.induct with
  | case1 V =>
    intro h
    simpa [ancestorsWalk] using h
  | case2 p rest V hmem ih =>
    intro h
    rw [show ancestorsWalk (p :: rest) V = ancestorsWalk rest V from
      by simp [ancestorsWalk, hmem]]
    exact ih h
  | case3 p rest V hmem ih1 ih2 =>
    intro h
    rw [show ancestorsWalk (p :: rest) V =
        ancestorsWalk rest (ancestorsWalk p.parents (V ++ [p])) from
      by simp [ancestorsWalk, hmem]]
    apply ih2
    apply ih1
    have hnotin : p.txid ∉ txidsOf V := by
      simp [visitedContains] at hmem
      simp [txidsOf]
      intro q hq hqe
      exact hmem q hq hqe
    rw [txidsOf_append]
    refine List.Nodup.append h ?_ ?_
    · simp [txidsOf]
    · intro t ht ht'
      simp [txidsOf] at ht'
      subst ht'
      exact hnotin ht

/-- `a` is `x` itself or one of its unconfirmed ancestors (i.e. one of the
entry objects occurring in the nested parent graph of `x`). -/
def Occurs (a x : TxMempoolEntry) : Prop :=
  a = x ∨ Ancestor a x

/-- Transaction ids are injective over the entry graph of `x`: two
occurring entries with the same id are the same entry.  This reflects the
data-model invariant that an id is a deterministic function of the encoded
content, so distinct entries of one graph carry distinct ids. -/
def WellFormed (x : TxMempoolEntry) : Prop :=
  ∀ a b, Occurs a x → Occurs b x → a.txid = b.txid → a = b

lemma ancestorsWalk_complete_aux (x : TxMempoolEntry) :
    ∀ a, Ancestor a x → ∀ (R : List TxMempoolEntry),
      (∀ p ∈ x.parents, p.txid ∈ txidsOf R) →
      (∀ w ∈ R, ∀ q ∈ w.parents, q.txid ∈ txidsOf R) →
      (∀ w ∈ R, Ancestor w x) →
      (∀ u v, Ancestor u x → Ancestor v x → u.txid = v.txid → u = v) →
      a.txid ∈ txidsOf R := by
  intro a ha
  induction ha with
  | parent h =>
    intro R hc1 _ _ _
    exact hc1 _ h
  | step hw hmem ih =>
    intro R hc1 hc2 hsnd hinj
    obtain ⟨w', hw'R, hww'⟩ := List.mem_map.mp (ih R hc1 hc2 hsnd hinj)
    have heq : w' = _ := hinj w' _ (hsnd w' hw'R) hw hww'
    subst heq
    exact hc2 w' hw'R _ hmem

lemma ancestorsWalk_complete (x : TxMempoolEntry) (hwf : WellFormed x) :
    ∀ a, Ancestor a x → a.txid ∈ txidsOf (ancestorsWalk x.parents []) := by
  intro a ha
  refine ancestorsWalk_complete_aux x a ha (ancestorsWalk x.parents [])
    (ancestorsWalk_closure x.parents []).1 ?_ ?_
    (fun u v hu hv => hwf u v (Or.inr hu) (Or.inr hv))
  · intro w hw
    rcases (ancestorsWalk_closure x.parents []).2 w hw with h0 | hcl
    · simp at h0
    · exact hcl
  · intro w hw
    rcases ancestorsWalk_sound x.parents [] x (fun p hp => Ancestor.parent hp) w hw
      with h0 | hh
    · simp at h0
    · exact hh

lemma mem_unconfirmed_ancestors_iff (x : TxMempoolEntry) (hwf : WellFormed x)
    (a : TxMempoolEntry) :
    a ∈ ancestorsWalk x.parents [] ↔ Ancestor a x := by
  constructor
  · intro h
    rcases ancestorsWalk_sound x.parents [] x (fun p hp => Ancestor.parent hp) a h
      with h0 | h
    · simp at h0
    · exact h
  · intro h
    obtain ⟨a', ha'R, haa'⟩ := List.mem_map.mp (ancestorsWalk_complete x hwf a h)
    have hanc' : Ancestor a' x := by
      rcases ancestorsWalk_sound x.parents [] x (fun p hp => Ancestor.parent hp) a' ha'R
        with h0 | hh
      · simp at h0
      · exact hh
    have heq : a' = a := hwf a' a (Or.inr hanc') (Or.inr h) haa'
    exact heq ▸ ha'R

end Mempool

namespace Mempool

/-- C5: for every mempool entry `x` whose entry graph carries injective
transaction ids, `unconfirmed_ancestors x` enumerates exactly the
transitive closure of the parents relation, without duplicates (so its
length is the number of distinct transitive ancestors), and it is empty
for an entry without parents. -/
theorem unconfirmed_ancestors_eq_transitive_closure (x : TxMempoolEntry)
    (hwf : WellFormed x) :
    (∀ a, a ∈ x.unconfirmed_ancestors ↔ Ancestor a x)
    ∧ (txidsOf x.unconfirmed_ancestors).Nodup
    ∧ (x.parents = [] → x.unconfirmed_ancestors = []) := by
  refine ⟨fun a => mem_unconfirmed_ancestors_iff x hwf a, ?_, ?_⟩
  · exact ancestorsWalk_nodup x.parents [] (by simp [txidsOf])
  · intro hp
    unfold TxMempoolEntry.unconfirmed_ancestors
    rw [hp]
    simp [ancestorsWalk]

/-! ### Concrete fixtures

A chain state with two confirmed outpoints worth 10 and 20 coins, and
transactions spending them.  Transaction ids are small naturals; the
genesis-like source ids 5 and 6 do not collide with any mempool id. -/

/-- A confirmed outpoint worth 10. -/
def exOp1 : OutPoint := ⟨5, 0⟩

/-- A confirmed outpoint worth 20. -/
def exOp2 : OutPoint := ⟨6, 0⟩

/-- The concrete chain state holding `exOp1` and `exOp2`. -/
def exChain : ChainState :=
  { contains_outpoint := fun o => decide (o = exOp1) || decide (o = exOp2)
    get_outpoint_value := fun o =>
      if o = exOp1 then some ⟨10⟩ else if o = exOp2 then some ⟨20⟩ else none }

/-- A dummy destination. -/
def exDest : Destination := .publicKey 0

/-- Spends `exOp1` (worth 10), one output of 9: fee 1; id 101. -/
def exTx1 : Transaction := ⟨0, [⟨exOp1, []⟩], [⟨⟨9⟩, exDest⟩], 0, 101, 100⟩

/-- Spends `exOp2` (worth 20), one output of 18: fee 2; id 102. -/
def exTx2 : Transaction := ⟨0, [⟨exOp2, []⟩], [⟨⟨18⟩, exDest⟩], 0, 102, 100⟩

/-- The empty mempool over `exChain`. -/
def exM0 : MempoolImpl := MempoolImpl.create exChain

/-- The entry created for `exTx1`. -/
def exEntry1 : TxMempoolEntry := .mk exTx1 ⟨1⟩ []

/-- The entry created for `exTx2`. -/
def exEntry2 : TxMempoolEntry := .mk exTx2 ⟨2⟩ []

/-- The mempool after admitting `exTx1`. -/
def exM1 : MempoolImpl :=
  { store :=
      { txs_by_id := [(101, exEntry1)]
        txs_by_fee := [(⟨1⟩, [exEntry1])]
        spender_txs := [(exOp1, exEntry1)] }
    chain_state := exChain }

/-- The mempool after admitting `exTx1` then `exTx2`. -/
def exM2 : MempoolImpl :=
  { store :=
      { txs_by_id := [(101, exEntry1), (102, exEntry2)]
        txs_by_fee := [(⟨1⟩, [exEntry1]), (⟨2⟩, [exEntry2])]
        spender_txs := [(exOp1, exEntry1), (exOp2, exEntry2)] }
    chain_state := exChain }

/-- The ordering property claimed for `get_all`: an entry with strictly
greater fee appears strictly earlier in the returned vector. -/
def GetAllSortedDescByFee (m : MempoolImpl) : Prop :=
  ∀ i j ei ej, m.entriesByFee.get? i = some ei → m.entriesByFee.get? j = some ej →
    ej.fee.val < ei.fee.val → i < j

/-- C1 (evidence): after admitting a fee-1 and then a fee-2 transaction,
`get_all` returns the fee-1 transaction first — `txs_by_fee` is iterated
in ascending key order, with no `.rev()` — so the claimed descending fee
order is violated, while the repository's own `txs_sorted` test asserts
descending order. -/
theorem get_all_returns_ascending_fee_order :
    exM0.add_transaction exTx1 = .ok exM1
    ∧ exM1.add_transaction exTx2 = .ok exM2
    ∧ exM2.entriesByFee = [exEntry1, exEntry2]
    ∧ exM2.get_all = [exTx1, exTx2]
    ∧ exEntry1.fee.val < exEntry2.fee.val
    ∧ ¬ GetAllSortedDescByFee exM2 := by
  refine ⟨rfl, rfl, rfl, rfl, by decide, ?_⟩
  intro h
  have h10 := h 1 0 exEntry2 exEntry1 rfl rfl (by decide)
  omega

end Mempool

namespace Mempool

/-- An entry for `exTx2` whose parent is the `exTx1` entry. -/
def exChild : TxMempoolEntry := .mk exTx2 ⟨2⟩ [exEntry1]

lemma ancestor_of_single (p0 : TxMempoolEntry) (hp : p0.parents = []) :
    ∀ a x, Ancestor a x → x.parents = [p0] → a = p0 := by
  intro a x h
  induction h with
  | parent hmem =>
    intro hx
    rw [hx] at hmem
    simpa using hmem
  | step hw hmem ih =>
    intro hx
    rw [ih hx, hp] at hmem
    simp at hmem

lemma exChild_wf : WellFormed exChild := by
  intro a b ha hb htx
  have key : ∀ c, Occurs c exChild → c = exChild ∨ c = exEntry1 := by
    intro c hc
    rcases hc with rfl | hc
    · exact Or.inl rfl
    · exact Or.inr (ancestor_of_single exEntry1 rfl c exChild hc rfl)
  rcases key a ha with rfl | rfl <;> rcases key b hb with rfl | rfl
  · rfl
  · exact absurd htx (by decide)
  · exact absurd htx (by decide)
  · rfl

/-- Witness for C5 at a concrete two-entry graph: a child entry with a
single parent and no deeper ancestors. -/
theorem unconfirmed_ancestors_eq_transitive_closure_witness :
    WellFormed exChild
    ∧ exChild.unconfirmed_ancestors = [exEntry1]
    ∧ (exEntry1 ∈ exChild.unconfirmed_ancestors ↔ Ancestor exEntry1 exChild)
    ∧ (txidsOf exChild.unconfirmed_ancestors).Nodup := by
  have h := unconfirmed_ancestors_eq_transitive_closure exChild exChild_wf
  refine ⟨exChild_wf, ?_, h.1 exEntry1, h.2.1⟩
  simp [TxMempoolEntry.unconfirmed_ancestors, ancestorsWalk, visitedContains,
    exChild, exEntry1, TxMempoolEntry.parents]

/-- The outpoint of `exTx1`'s first output. -/
def exOp3 : OutPoint := ⟨101, 0⟩

/-- Spends `exTx1`'s output 0 (unconfirmed, worth 9), one output of 4:
fee 5; id 103.  Its only parent candidate is the `exTx1` entry. -/
def exTx3 : Transaction := ⟨0, [⟨exOp3, []⟩], [⟨⟨4⟩, exDest⟩], 0, 103, 100⟩

/-- C3 (evidence): a transaction spending an unconfirmed output passes
validation, and `create_entry` builds exactly the entry the claim
describes (parents = the entry whose id is the input's source-tx id), but
`add_transaction` aborts in the `Rc::get_mut(..).expect("exclusive access
to parent")` children update of `MempoolStore::add_tx` instead of
succeeding, because each parent `Rc` is shared with `txs_by_id`. -/
theorem add_transaction_with_parent_panics :
    exM0.add_transaction exTx1 = .ok exM1
    ∧ exM1.validate_transaction exTx3 = none
    ∧ exM1.create_entry exTx3 = .ok (.mk exTx3 ⟨5⟩ [exEntry1])
    ∧ (TxMempoolEntry.mk exTx3 ⟨5⟩ [exEntry1]).parents = [exEntry1]
    ∧ exM1.add_transaction exTx3 = .panicked :=
  ⟨rfl, rfl, rfl, rfl, rfl⟩

/-- A placeholder transaction with id `i` (content irrelevant; used only
to populate a large store). -/
def bigTx (i : Nat) : Transaction := ⟨0, [], [], 0, i, 0⟩

/-- The fee-0 entry of `bigTx i`. -/
def bigEntry (i : Nat) : TxMempoolEntry := .mk (bigTx i) ⟨0⟩ []

/-- A mempool holding `MEMPOOL_MAX_TXS` transactions, all with fee 0, so
that `txs_by_fee` has a single key. -/
def bigM : MempoolImpl :=
  { store :=
      { txs_by_id := (List.range MEMPOOL_MAX_TXS).map fun i => (i, bigEntry i)
        txs_by_fee := [(⟨0⟩, (List.range MEMPOOL_MAX_TXS).map bigEntry)]
        spender_txs := [] }
    chain_state := exChain }

/-- A transaction with no inputs (id 999). -/
def exTxNoInputs : Transaction := ⟨0, [], [⟨⟨1⟩, exDest⟩], 0, 999, 10⟩

/-- C4 (evidence): the capacity check compares `txs_by_fee.len()` — the
number of DISTINCT FEE VALUES — against `MEMPOOL_MAX_TXS`, not the number
of transactions.  On a mempool holding `MEMPOOL_MAX_TXS` transactions that
share one fee, `add_transaction` does not return `MempoolFull` but
proceeds into validation (here: `NoInputs`). -/
theorem mempool_full_checks_distinct_fees_not_tx_count :
    bigM.store.txs_by_id.length = MEMPOOL_MAX_TXS
    ∧ bigM.store.txs_by_fee.length = 1
    ∧ bigM.add_transaction exTxNoInputs = .err (.txValidationError .noInputs)
    ∧ bigM.add_transaction exTxNoInputs ≠ .err .mempoolFull := by
  have hadd : bigM.add_transaction exTxNoInputs = .err (.txValidationError .noInputs) := rfl
  refine ⟨?_, rfl, hadd, ?_⟩
  · simp [bigM, List.length_map, List.length_range]
  · rw [hadd]
    intro hcontra
    exact MempoolError.noConfusion (AddOutcome.err.inj hcontra)

end Mempool

namespace Mempool

lemma validate_none_inv (m : MempoolImpl) (tx : Transaction)
    (h : m.validate_transaction tx = none) :
    m.contains_transaction tx.txid = false
    ∧ (m.conflictingEntries tx).any (fun e => ! e.is_replaceable) = false := by
  unfold MempoolImpl.validate_transaction at h
  by_cases h1 : tx.inputs.isEmpty = true
  · simp [h1] at h
  by_cases h2 : tx.outputs.isEmpty = true
  · simp [h1, h2] at h
  by_cases h3 : tx.is_coinbase = true
  · simp [h1, h2, h3] at h
  by_cases h4 : hasDuplicateEntry tx.outpointsOf = true
  · simp [h1, h2, h3, h4] at h
  by_cases h5 : MAX_BLOCK_SIZE_BYTES < tx.size
  · simp [h1, h2, h3, h4, h5] at h
  by_cases h6 : m.contains_transaction tx.txid = true
  · simp [h1, h2, h3, h4, h5, h6] at h
  by_cases h7 : (m.conflictingEntries tx).any (fun e => ! e.is_replaceable) = true
  · simp [h1, h2, h3, h4, h5, h6, h7] at h
  exact ⟨by simpa using h6, by simpa using h7⟩

lemma validate_none_no_irreplaceable (m : MempoolImpl) (tx : Transaction)
    (h : m.validate_transaction tx = none) :
    ∀ e ∈ m.conflictingEntries tx, e.is_replaceable = true := by
  intro e he
  have h7 := (validate_none_inv m tx h).2
  have := List.any_eq_false.mp h7 e he
  simpa using this

lemma add_transaction_ok_validate (m : MempoolImpl) (tx : Transaction) (m' : MempoolImpl)
    (hok : m.add_transaction tx = .ok m') :
    m.validate_transaction tx = none := by
  unfold MempoolImpl.add_transaction at hok
  by_cases hc : MEMPOOL_MAX_TXS ≤ m.store.txs_by_fee.length
  · rw [if_pos hc] at hok
    exact absurd hok (by simp)
  · rw [if_neg hc] at hok
    cases hv : m.validate_transaction tx with
    | some e0 =>
      rw [hv] at hok
      simp at hok
    | none => rfl

/-- Inversion of a successful `add_transaction`: validation passed, an
entry was created, its parents set is empty (otherwise `add_tx` panics),
and the resulting mempool is the input store with the entry inserted into
all three indices. -/
lemma add_transaction_ok_inv (m : MempoolImpl) (tx : Transaction) (m' : MempoolImpl)
    (hok : m.add_transaction tx = .ok m') :
    m.validate_transaction tx = none
    ∧ ∃ en, m.create_entry tx = .ok en ∧ en.parents = []
        ∧ m' = { m with store :=
            { txs_by_id := insertById m.store.txs_by_id en.txid en
              txs_by_fee := feeMapInsert m.store.txs_by_fee en.fee en
              spender_txs := en.tx.inputs.foldl
                (fun sp i => insertSpender sp i.outpoint en) m.store.spender_txs } } := by
  refine ⟨add_transaction_ok_validate m tx m' hok, ?_⟩
  unfold MempoolImpl.add_transaction at hok
  by_cases hc : MEMPOOL_MAX_TXS ≤ m.store.txs_by_fee.length
  · rw [if_pos hc] at hok
    exact absurd hok (by simp)
  rw [if_neg hc] at hok
  cases hv : m.validate_transaction tx with
  | some e0 =>
    rw [hv] at hok
    simp at hok
  | none =>
  rw [hv] at hok
  cases hce : m.create_entry tx with
  | error e0 =>
    rw [hce] at hok
    simp at hok
  | ok en =>
  rw [hce] at hok
  by_cases hpar : en.parents.isEmpty = true
  · simp only [MempoolStore.add_tx, hpar, if_true] at hok
    refine ⟨en, rfl, List.isEmpty_iff.mp hpar, ?_⟩
    simp at hok
    exact hok.symm
  · simp only [MempoolStore.add_tx, hpar, if_false] at hok
    simp [hpar] at hok
end Mempool

namespace Mempool

/-- C2: a transaction that spends an outpoint already spent by a mempool
entry is admitted only when every conflicting entry is replaceable — an
entry being replaceable iff its own transaction's flags bit signals
replaceability or some unconfirmed ancestor's does — and, once the checks
preceding the conflict check pass, a non-replaceable conflict makes
`add_transaction` fail with `ConflictWithIrreplaceableTransaction`. -/
theorem add_transaction_requires_replaceable_conflicts
    (m : MempoolImpl) (tx : Transaction)
    (hcap : m.store.txs_by_fee.length < MEMPOOL_MAX_TXS)
    (hin : tx.inputs.isEmpty = false)
    (hout : tx.outputs.isEmpty = false)
    (hcb : tx.is_coinbase = false)
    (hdup : hasDuplicateEntry tx.outpointsOf = false)
    (hsize : tx.size ≤ MAX_BLOCK_SIZE_BYTES)
    (hmem : m.contains_transaction tx.txid = false)
    (hconf : (m.conflictingEntries tx).any (fun e => ! e.is_replaceable) = true) :
    m.add_transaction tx = .err (.txValidationError .conflictWithIrreplaceableTransaction)
    ∧ (∀ (m2 : MempoolImpl) (tx2 : Transaction) (m2' : MempoolImpl),
        m2.add_transaction tx2 = .ok m2' →
        ∀ e ∈ m2.conflictingEntries tx2, e.is_replaceable = true)
    ∧ (∀ e : TxMempoolEntry,
        e.is_replaceable = true ↔
          (e.tx.is_replaceable = true
            ∨ ∃ a ∈ e.unconfirmed_ancestors, a.tx.is_replaceable = true)) := by
  refine ⟨?_, ?_, ?_⟩
  · have hval : m.validate_transaction tx = some .conflictWithIrreplaceableTransaction := by
      unfold MempoolImpl.validate_transaction
      simp [hin, hout, hcb, hdup, hmem, hconf, Nat.not_lt.mpr hsize]
    unfold MempoolImpl.add_transaction
    rw [if_neg (Nat.not_le.mpr hcap), hval]
  · intro m2 tx2 m2' hok
    exact validate_none_no_irreplaceable m2 tx2 (add_transaction_ok_validate m2 tx2 m2' hok)
  · intro e
    simp [TxMempoolEntry.is_replaceable, List.any_eq_true]

/-- An irreplaceable (flags 0) transaction spending `exOp1`; id 201. -/
def exTxIrr : Transaction := ⟨0, [⟨exOp1, []⟩], [⟨⟨9⟩, exDest⟩], 0, 201, 100⟩

/-- The entry of `exTxIrr`. -/
def exEntryIrr : TxMempoolEntry := .mk exTxIrr ⟨1⟩ []

/-- A mempool whose only entry irreplaceably spends `exOp1`. -/
def exMIrr : MempoolImpl :=
  { store :=
      { txs_by_id := [(201, exEntryIrr)]
        txs_by_fee := [(⟨1⟩, [exEntryIrr])]
        spender_txs := [(exOp1, exEntryIrr)] }
    chain_state := exChain }

/-- A conflicting transaction also spending `exOp1`; id 202. -/
def exTxConf : Transaction := ⟨0, [⟨exOp1, []⟩], [⟨⟨8⟩, exDest⟩], 0, 202, 100⟩

/-- Witness for C2: a concrete irreplaceable conflict is rejected with
`ConflictWithIrreplaceableTransaction`. -/
theorem add_transaction_requires_replaceable_conflicts_witness :
    (exMIrr.conflictingEntries exTxConf).any (fun e => ! e.is_replaceable) = true
    ∧ exMIrr.add_transaction exTxConf =
        .err (.txValidationError .conflictWithIrreplaceableTransaction) := by
  have hconf : (exMIrr.conflictingEntries exTxConf).any (fun e => ! e.is_replaceable) = true := by
    simp [MempoolImpl.conflictingEntries, MempoolStore.find_conflicting_tx, lookupSpender,
      exMIrr, exTxConf, exOp1, TxMempoolEntry.is_replaceable, Transaction.is_replaceable,
      TxMempoolEntry.unconfirmed_ancestors, ancestorsWalk, exEntryIrr, exTxIrr,
      TxMempoolEntry.parents, TxMempoolEntry.tx]
  exact ⟨hconf,
    (add_transaction_requires_replaceable_conflicts exMIrr exTxConf (by decide) rfl rfl rfl
      rfl (by decide) rfl hconf).1⟩

end Mempool

namespace Mempool

/-- The mempool observable after an `add_transaction` call (the Rust
receiver is `&mut self`): the new mempool on success, the untouched input
on an error — every error is returned before `add_tx` runs, and the
capacity check, `validate_transaction` and `create_entry` take `&self`.
A panic aborts the process, leaving nothing observable; the arbitrary
value returned for `panicked` here is never relied upon. -/
def MempoolImpl.afterState (m : MempoolImpl) (tx : Transaction) : MempoolImpl :=
  match m.add_transaction tx with
  | .ok m' => m'
  | _ => m

/-- C9: `add_transaction` is atomic on failure — when it returns an error
the mempool is unchanged: `contains_transaction` and `get_all` answer
exactly as before the call (indeed all three indices are untouched). -/
theorem add_transaction_error_is_atomic
    (m : MempoolImpl) (tx : Transaction) (e : MempoolError)
    (h : m.add_transaction tx = .err e) :
    (∀ i : Nat, (m.afterState tx).contains_transaction i = m.contains_transaction i)
    ∧ (m.afterState tx).get_all = m.get_all
    ∧ (m.afterState tx).store.txs_by_id = m.store.txs_by_id
    ∧ (m.afterState tx).store.txs_by_fee = m.store.txs_by_fee
    ∧ (m.afterState tx).store.spender_txs = m.store.spender_txs := by
  have heq : m.afterState tx = m := by
    unfold MempoolImpl.afterState
    rw [h]
  rw [heq]
  exact ⟨fun i => rfl, rfl, rfl, rfl, rfl⟩

/-- Witness for C9: a no-input transaction is rejected and the mempool
observations are unchanged. -/
theorem add_transaction_error_is_atomic_witness :
    exM1.add_transaction exTxNoInputs = .err (.txValidationError .noInputs)
    ∧ (exM1.afterState exTxNoInputs).get_all = exM1.get_all
    ∧ (∀ i : Nat,
        (exM1.afterState exTxNoInputs).contains_transaction i =
          exM1.contains_transaction i) :=
  ⟨rfl,
    (add_transaction_error_is_atomic exM1 exTxNoInputs _ rfl).2.1,
    (add_transaction_error_is_atomic exM1 exTxNoInputs _ rfl).1⟩

end Mempool

namespace Mempool

lemma lookupById_insert_ne (l : List (Nat × TxMempoolEntry)) (k k' : Nat)
    (v : TxMempoolEntry) (hne : k' ≠ k) :
    lookupById (insertById l k v) k' = lookupById l k' := by
  induction l with
  | nil => simp [insertById, lookupById, Ne.symm hne]
  | cons kv rest ih =>
    obtain ⟨k0, v0⟩ := kv
    by_cases h0 : k0 = k
    · subst h0
      simp [insertById, lookupById, Ne.symm hne]
    · by_cases h1 : k0 = k'
      · simp [insertById, lookupById, h0, h1, hne]
      · simp [insertById, lookupById, h0, h1, ih]

lemma bucketInsert_mem_preserved {y : TxMempoolEntry} (b : List TxMempoolEntry)
    (e : TxMempoolEntry) (hy : y ∈ b) : y ∈ bucketInsert b e := by
  induction b with
  | nil => simp at hy
  | cons x rest ih =>
    unfold bucketInsert
    rcases List.mem_cons.mp hy with rfl | hy'
    · split_ifs <;> simp
    · split_ifs <;> simp [hy', ih hy']

lemma bucketInsert_self_mem (b : List TxMempoolEntry) (e : TxMempoolEntry)
    (h : ∀ y ∈ b, ¬ y.txid = e.txid) : e ∈ bucketInsert b e := by
  induction b with
  | nil => simp [bucketInsert]
  | cons x rest ih =>
    unfold bucketInsert
    have hx : ¬ e.txid = x.txid := fun heq => h x (by simp) heq.symm
    rw [if_neg hx]
    split_ifs
    · simp
    · simp [ih fun y hy => h y (List.mem_cons_of_mem _ hy)]

lemma mem_flatten_feeMapInsert {x : TxMempoolEntry}
    (fm : List (Amount × List TxMempoolEntry)) (fee : Amount) (e : TxMempoolEntry)
    (hx : x ∈ (fm.map Prod.snd).flatten) :
    x ∈ ((feeMapInsert fm fee e).map Prod.snd).flatten := by
  induction fm with
  | nil => simp at hx
  | cons fb rest ih =>
    obtain ⟨f, b⟩ := fb
    unfold feeMapInsert
    simp only [List.map_cons, List.flatten_cons, List.mem_append] at hx
    split_ifs
    · rcases hx with hb | hrest
      · simp [bucketInsert_mem_preserved b e hb]
      · simp [hrest]
    · rcases hx with hb | hrest
      · simp [hb]
      · simp [hrest]
    · rcases hx with hb | hrest
      · simp [hb]
      · simp [ih hrest]

lemma self_mem_flatten_feeMapInsert
    (fm : List (Amount × List TxMempoolEntry)) (fee : Amount) (e : TxMempoolEntry)
    (h : ∀ y ∈ (fm.map Prod.snd).flatten, ¬ y.txid = e.txid) :
    e ∈ ((feeMapInsert fm fee e).map Prod.snd).flatten := by
  induction fm with
  | nil => simp [feeMapInsert, bucketInsert]
  | cons fb rest ih =>
    obtain ⟨f, b⟩ := fb
    unfold feeMapInsert
    split_ifs
    · have : e ∈ bucketInsert b e := by
        refine bucketInsert_self_mem b e fun y hy => h y ?_
        simp [hy]
      simp [this]
    · simp
    · have : e ∈ ((feeMapInsert rest fee e).map Prod.snd).flatten := by
        refine ih fun y hy => h y ?_
        simp only [List.map_cons, List.flatten_cons, List.mem_append]
        exact Or.inr hy
      simp [this]

lemma lookupSpender_insert_self (sp : List (OutPoint × TxMempoolEntry))
    (k : OutPoint) (v : TxMempoolEntry) :
    lookupSpender (insertSpender sp k v) k = some v := by
  induction sp with
  | nil => simp [insertSpender, lookupSpender]
  | cons kv rest ih =>
    obtain ⟨k0, v0⟩ := kv
    by_cases h0 : k0 = k
    · simp [insertSpender, lookupSpender, h0]
    · simp [insertSpender, lookupSpender, h0, ih]

lemma lookupSpender_insert_ne (sp : List (OutPoint × TxMempoolEntry))
    (k k' : OutPoint) (v : TxMempoolEntry) (hne : k' ≠ k) :
    lookupSpender (insertSpender sp k v) k' = lookupSpender sp k' := by
  induction sp with
  | nil => simp [insertSpender, lookupSpender, Ne.symm hne]
  | cons kv rest ih =>
    obtain ⟨k0, v0⟩ := kv
    by_cases h0 : k0 = k
    · subst h0
      simp [insertSpender, lookupSpender, Ne.symm hne]
    · by_cases h1 : k0 = k'
      · simp [insertSpender, lookupSpender, h0, h1, hne]
      · simp [insertSpender, lookupSpender, h0, h1, ih]

lemma lookupSpender_foldl_frame (inputs : List TxInput)
    (sp : List (OutPoint × TxMempoolEntry)) (e : TxMempoolEntry) (o : OutPoint)
    (ho : o ∉ inputs.map TxInput.outpoint) :
    lookupSpender (inputs.foldl (fun s i => insertSpender s i.outpoint e) sp) o =
      lookupSpender sp o := by
  induction inputs generalizing sp with
  | nil => rfl
  | cons i rest ih =>
    simp only [List.map_cons, List.mem_cons, not_or] at ho
    rw [List.foldl_cons, ih _ ho.2, lookupSpender_insert_ne _ _ _ _ ho.1]

lemma lookupSpender_foldl_mem (inputs : List TxInput)
    (sp : List (OutPoint × TxMempoolEntry)) (e : TxMempoolEntry) (o : OutPoint)
    (ho : o ∈ inputs.map TxInput.outpoint) :
    lookupSpender (inputs.foldl (fun s i => insertSpender s i.outpoint e) sp) o =
      some e := by
  induction inputs generalizing sp with
  | nil => simp at ho
  | cons i rest ih =>
    by_cases hrest : o ∈ rest.map TxInput.outpoint
    · rw [List.foldl_cons]
      exact ih _ hrest
    · have hoi : o = i.outpoint := by
        simp only [List.map_cons, List.mem_cons] at ho
        tauto
      subst hoi
      rw [List.foldl_cons, lookupSpender_foldl_frame rest _ e _ hrest,
        lookupSpender_insert_self]

end Mempool

namespace Mempool

/-- C10: admitting a transaction that conflicts with a (necessarily
replaceable) mempool entry does not evict that entry — after the
successful `add_transaction` the incumbent is still present in `txs_by_id`
and in `txs_by_fee` (so both the old and the new spender appear in
`get_all`), and only the `spender_txs` bindings of the contested outpoints
are overwritten to the new entry; every other outpoint's spender is
unchanged. -/
theorem replaceable_conflict_not_evicted
    (m : MempoolImpl) (tx : Transaction) (en : TxMempoolEntry) (m' : MempoolImpl)
    (o : OutPoint) (eOld : TxMempoolEntry)
    (hok : m.add_transaction tx = .ok m')
    (hce : m.create_entry tx = .ok en)
    (ho : o ∈ tx.outpointsOf)
    (hconf : m.store.find_conflicting_tx o = some eOld)
    (hid : lookupById m.store.txs_by_id eOld.txid = some eOld)
    (hfee : eOld ∈ m.entriesByFee)
    (hnew : ∀ y ∈ m.entriesByFee, ¬ y.txid = tx.txid) :
    eOld.is_replaceable = true
    ∧ lookupById m'.store.txs_by_id eOld.txid = some eOld
    ∧ eOld ∈ m'.entriesByFee
    ∧ eOld.tx ∈ m'.get_all
    ∧ en.tx = tx
    ∧ en ∈ m'.entriesByFee
    ∧ tx ∈ m'.get_all
    ∧ (∀ o2 ∈ tx.outpointsOf, m'.store.find_conflicting_tx o2 = some en)
    ∧ (∀ o2 : OutPoint, o2 ∉ tx.outpointsOf →
        m'.store.find_conflicting_tx o2 = m.store.find_conflicting_tx o2) := by
  obtain ⟨hval, en', hce', hpar, hm'⟩ := add_transaction_ok_inv m tx m' hok
  rw [hce] at hce'
  have hen : en' = en := (Except.ok.inj hce').symm
  subst hen
  have hentx : en'.tx = tx := by
    unfold MempoolImpl.create_entry at hce
    cases hf : m.try_get_fee tx with
    | error e0 =>
      rw [hf] at hce
      simp at hce
    | ok fee =>
      rw [hf] at hce
      have hmk : TxMempoolEntry.mk tx fee (m.collectParents tx) = en' := by
        simpa using hce
      rw [← hmk]
      rfl
  have hcont := (validate_none_inv m tx hval).1
  have hne : eOld.txid ≠ tx.txid := by
    intro heq
    unfold MempoolImpl.contains_transaction at hcont
    rw [← heq, hid] at hcont
    simp at hcont
  have hentxid : en'.txid = tx.txid := by
    unfold TxMempoolEntry.txid
    rw [hentx]
  have hmemconf : eOld ∈ m.conflictingEntries tx := by
    unfold MempoolImpl.conflictingEntries
    unfold Transaction.outpointsOf at ho
    obtain ⟨i, hi, hio⟩ := List.mem_map.mp ho
    refine List.mem_filterMap.mpr ⟨i, hi, ?_⟩
    rw [hio, hconf]
  have hrep := validate_none_no_irreplaceable m tx hval eOld hmemconf
  have hfee' : eOld ∈ ((feeMapInsert m.store.txs_by_fee en'.fee en').map Prod.snd).flatten :=
    mem_flatten_feeMapInsert m.store.txs_by_fee en'.fee en' hfee
  have hself : en' ∈ ((feeMapInsert m.store.txs_by_fee en'.fee en').map Prod.snd).flatten := by
    refine self_mem_flatten_feeMapInsert m.store.txs_by_fee en'.fee en' ?_
    intro y hy heq
    exact hnew y hy (heq.trans hentxid)
  subst hm'
  refine ⟨hrep, ?_, hfee', List.mem_map.mpr ⟨eOld, hfee', rfl⟩, hentx, hself,
    List.mem_map.mpr ⟨en', hself, hentx⟩, ?_, ?_⟩
  · show lookupById (insertById m.store.txs_by_id en'.txid en') eOld.txid = some eOld
    rw [lookupById_insert_ne m.store.txs_by_id en'.txid eOld.txid en'
      (by rw [hentxid]; exact hne)]
    exact hid
  · intro o2 ho2
    show lookupSpender
      (en'.tx.inputs.foldl (fun sp i => insertSpender sp i.outpoint en')
        m.store.spender_txs) o2 = some en'
    refine lookupSpender_foldl_mem en'.tx.inputs m.store.spender_txs en' o2 ?_
    rw [hentx]
    exact ho2
  · intro o2 ho2
    show lookupSpender
      (en'.tx.inputs.foldl (fun sp i => insertSpender sp i.outpoint en')
        m.store.spender_txs) o2 = m.store.find_conflicting_tx o2
    refine lookupSpender_foldl_frame en'.tx.inputs m.store.spender_txs en' o2 ?_
    rw [hentx]
    exact ho2

end Mempool

namespace Mempool

/-- A replaceable (flags 1) transaction spending `exOp1`; id 301. -/
def exTxRep : Transaction := ⟨1, [⟨exOp1, []⟩], [⟨⟨9⟩, exDest⟩], 0, 301, 100⟩

/-- The entry of `exTxRep`. -/
def exEntryRep : TxMempoolEntry := .mk exTxRep ⟨1⟩ []

/-- A mempool whose only entry replaceably spends `exOp1`. -/
def exMRep : MempoolImpl :=
  { store :=
      { txs_by_id := [(301, exEntryRep)]
        txs_by_fee := [(⟨1⟩, [exEntryRep])]
        spender_txs := [(exOp1, exEntryRep)] }
    chain_state := exChain }

/-- A competing spender of `exOp1` with fee 5; id 302. -/
def exTxRepl : Transaction := ⟨0, [⟨exOp1, []⟩], [⟨⟨5⟩, exDest⟩], 0, 302, 100⟩

/-- The entry created for `exTxRepl`. -/
def exEntryRepl : TxMempoolEntry := .mk exTxRepl ⟨5⟩ []

/-- The mempool after the replacement is admitted: the incumbent entry is
still in `txs_by_id` and `txs_by_fee`; only `spender_txs[exOp1]` now maps
to the new entry. -/
def exMRep' : MempoolImpl :=
  { store :=
      { txs_by_id := [(301, exEntryRep), (302, exEntryRepl)]
        txs_by_fee := [(⟨1⟩, [exEntryRep]), (⟨5⟩, [exEntryRepl])]
        spender_txs := [(exOp1, exEntryRepl)] }
    chain_state := exChain }

/-- Witness for C10 at the concrete replacement scenario. -/
theorem replaceable_conflict_not_evicted_witness :
    exMRep.add_transaction exTxRepl = .ok exMRep'
    ∧ exMRep.store.find_conflicting_tx exOp1 = some exEntryRep
    ∧ lookupById exMRep'.store.txs_by_id exEntryRep.txid = some exEntryRep
    ∧ exEntryRep.tx ∈ exMRep'.get_all
    ∧ exTxRepl ∈ exMRep'.get_all
    ∧ exMRep'.store.find_conflicting_tx exOp1 = some exEntryRepl := by
  have hok : exMRep.add_transaction exTxRepl = .ok exMRep' := rfl
  have hfee : exEntryRep ∈ exMRep.entriesByFee := by
    rw [show exMRep.entriesByFee = [exEntryRep] from rfl]
    exact List.mem_singleton_self _
  have hnew : ∀ y ∈ exMRep.entriesByFee, ¬ y.txid = exTxRepl.txid := by
    intro y hy
    rw [show exMRep.entriesByFee = [exEntryRep] from rfl] at hy
    rw [List.mem_singleton.mp hy]
    decide
  obtain ⟨hrep, hid', hfee', hgold, hentx, henf, hgnew, hsp, hframe⟩ :=
    replaceable_conflict_not_evicted exMRep exTxRepl exEntryRepl exMRep' exOp1 exEntryRep
      hok rfl (by decide) rfl rfl hfee hnew
  exact ⟨hok, rfl, hid', hgold, hgnew, hsp exOp1 (by decide)⟩

end Mempool

/-! ## Chainstate genesis acceptance

`Chainstate::process_block` is not part of the source snapshot (only its
tests and the crate façade are), so the genesis-acceptance contract is
modelled from the specification, §4.4 of the design document. -/

namespace ChainstateSpec

/-- Modelled from the spec: the block source, `Local` or `Peer`. -/
inductive BlockSource where
  | Local
  | Peer
deriving DecidableEq, Repr

/-- Modelled from the spec: the submission-error kinds exercised by the
genesis pipeline (`InvalidBlockSource`, `LocalOrphan`, structural
`InvalidBlock`). -/
inductive BlockError where
  | invalidBlockSource
  | localOrphan
  | invalidBlock
deriving DecidableEq, Repr

/-- Modelled from the spec: a block is its 256-bit id (deterministic from
the encoded content, abstracted as a `Nat`) and the optional parent id;
genesis has `prev_id = none`. -/
structure Block where
  id : Nat
  prev_id : Option Nat
deriving DecidableEq, Repr

/-- Modelled from the spec: the per-block index entry `(block_id, prev_id,
height, chain_trust)`. -/
structure BlockIndex where
  block_id : Nat
  prev_block_id : Option Nat
  height : Nat
  chain_trust : Nat
deriving DecidableEq, Repr

/-- Modelled from the spec: the persistent store — `block_id → BlockIndex`
plus `best_block_id`. -/
structure Storage where
  block_index : List (Nat × BlockIndex)
  best_block_id : Option Nat
deriving DecidableEq, Repr

/-- The empty store (`Store::new_empty`, before any genesis). -/
def Storage.empty : Storage :=
  ⟨[], none⟩

/-- Modelled from the spec: the chain configuration fixes the genesis
block (and hence the genesis id). -/
structure ChainConfig where
  genesis_block : Block
deriving DecidableEq, Repr

/-- The configured genesis id. -/
def ChainConfig.genesis_block_id (cfg : ChainConfig) : Nat :=
  cfg.genesis_block.id

/-- Index lookup in the store. -/
def Storage.lookupIndex (st : Storage) (bid : Nat) : Option BlockIndex :=
  st.block_index.lookup bid

/-- The chain trust of the current best block (0 when there is none). -/
def Storage.bestTrust (st : Storage) : Nat :=
  match st.best_block_id with
  | none => 0
  | some bid =>
    match st.lookupIndex bid with
    | some bi => bi.chain_trust
    | none => 0

/-- Modelled from the spec (§4.4): `process_block(block, source)`.
Genesis — the block whose id equals the configured genesis id and whose
`prev_id` is none — is accepted only from `Local`; from `Peer` it fails
with `InvalidBlockSource` and the store is untouched.  Stage 1 deduplicates
on the block id.  A non-genesis block whose parent is not indexed goes to
the orphan pool with `LocalOrphan`.  Index creation assigns
`height = parent.height + 1` and `chain_trust = parent.chain_trust + work`
with `work = 1` under `IgnoreConsensus`; genesis gets height 0 and trust 1.
Fork choice commits `best_block_id` when the new trust exceeds the best
trust.  Every failure leaves the store unchanged. -/
def process_block (cfg : ChainConfig) (st : Storage) (b : Block) (src : BlockSource) :
    Except BlockError (Option BlockIndex) × Storage :=
  match st.lookupIndex b.id with
  | some bi => (.ok (some bi), st)
  | none =>
    if b.id = cfg.genesis_block_id ∧ b.prev_id = none then
      match src with
      | .Peer => (.error .invalidBlockSource, st)
      | .Local =>
        let bi : BlockIndex :=
          { block_id := b.id, prev_block_id := none, height := 0, chain_trust := 1 }
        let st1 : Storage := { st with block_index := (b.id, bi) :: st.block_index }
        if st.bestTrust < bi.chain_trust then
          (.ok (some bi), { st1 with best_block_id := some b.id })
        else
          (.ok (some bi), st1)
    else
      match b.prev_id with
      | none => (.error .invalidBlock, st)
      | some pid =>
        match st.lookupIndex pid with
        | none => (.error .localOrphan, st)
        | some pbi =>
          let bi : BlockIndex :=
            { block_id := b.id, prev_block_id := some pid,
              height := pbi.height + 1, chain_trust := pbi.chain_trust + 1 }
          let st1 : Storage := { st with block_index := (b.id, bi) :: st.block_index }
          if st.bestTrust < bi.chain_trust then
            (.ok (some bi), { st1 with best_block_id := some b.id })
          else
            (.ok (some bi), st1)

/-- C6: on an empty store, processing the configured genesis block (id
equal to the configured genesis id, `prev_id` none) from `Peer` fails with
`InvalidBlockSource` and leaves the store unchanged; from `Local` it
succeeds, and afterwards `best_block_id` equals the genesis id and the
returned block index has height 0 and chain trust 1. -/
theorem process_genesis_block_source (cfg : ChainConfig)
    (hprev : cfg.genesis_block.prev_id = none) :
    process_block cfg Storage.empty cfg.genesis_block .Peer =
      (.error .invalidBlockSource, Storage.empty)
    ∧ ∃ bi st', process_block cfg Storage.empty cfg.genesis_block .Local =
          (.ok (some bi), st')
        ∧ st'.best_block_id = some cfg.genesis_block_id
        ∧ bi.block_id = cfg.genesis_block_id
        ∧ bi.height = 0
        ∧ bi.chain_trust = 1 := by
  constructor
  · unfold process_block
    simp [Storage.empty, Storage.lookupIndex, ChainConfig.genesis_block_id, hprev]
  · refine ⟨⟨cfg.genesis_block.id, none, 0, 1⟩,
      ⟨[(cfg.genesis_block.id, ⟨cfg.genesis_block.id, none, 0, 1⟩)],
        some cfg.genesis_block.id⟩, ?_, rfl, rfl, rfl, rfl⟩
    unfold process_block
    simp [Storage.empty, Storage.lookupIndex, Storage.bestTrust,
      ChainConfig.genesis_block_id, hprev]

/-- Witness for C6 at a concrete configuration. -/
theorem process_genesis_block_source_witness :
    (ChainConfig.mk ⟨77, none⟩).genesis_block.prev_id = none
    ∧ process_block (ChainConfig.mk ⟨77, none⟩) Storage.empty ⟨77, none⟩ .Peer =
        (.error .invalidBlockSource, Storage.empty) :=
  ⟨rfl, (process_genesis_block_source (ChainConfig.mk ⟨77, none⟩) rfl).1⟩

end ChainstateSpec
